import Mathlib

/-!
Verification development for the subtitle job-pipeline service.

The Python sources are shallowly embedded: Python strings are `List Char`,
Python floats that carry media timestamps or ledger minutes are modelled as
exact rationals (`ℚ`), fallible paths (raised exceptions) are `Option`/`Except`,
and stateful endpoints are pure functions from an explicit state to a result
plus the next state.  Every definition follows the corresponding source
function; the few spec-side definitions written from the specification's own
words are named `...Spec` and documented as such.
-/

namespace SiteLegendas

/-! ## Python string primitives

Python `str` is modelled as `List Char`.  `str.split()` with no argument
splits on runs of whitespace and drops empty fields; `str.strip()` removes
leading and trailing whitespace.  (CPython also treats a handful of rare
Unicode spaces as whitespace; the model covers the ASCII whitespace class,
which is exact for every input considered here.) -/

/-- The ASCII whitespace class of Python's `str.split` / `str.strip`. -/
def pyIsSpace (c : Char) : Bool :=
  c = ' ' ∨ c = '\t' ∨ c = '\n' ∨ c = '\x0d' ∨ c = '\x0b' ∨ c = '\x0c'

/-- Helper for `pySplit`: `acc` is the current word, reversed. -/
def pySplitAux : List Char → List Char → List (List Char)
  | [], acc => if acc = [] then [] else [acc.reverse]
  | c :: cs, acc =>
    if pyIsSpace c then
      if acc = [] then pySplitAux cs [] else acc.reverse :: pySplitAux cs []
    else pySplitAux cs (c :: acc)

/-- Python `text.split()`: whitespace-separated words, empties dropped. -/
def pySplit (s : List Char) : List (List Char) :=
  pySplitAux s []

/-- Python `text.strip()`. -/
def pyStrip (s : List Char) : List Char :=
  ((s.dropWhile pyIsSpace).reverse.dropWhile pyIsSpace).reverse

/-- Python `round()` / IEEE-754 rounding of an exact value to an integer:
round half to even. -/
def pythonRound (q : ℚ) : ℤ :=
  let fl := q.num.fdiv q.den
  let r := q - fl
  if r < 1/2 then fl
  else if r > 1/2 then fl + 1
  else if fl % 2 = 0 then fl else fl + 1

/-! ## Priority queue (`backend/utils/queue_manager.py`)

Redis lists: `lpush` prepends, `rpop` removes the last element, so each queue
list stores the newest entry first and the oldest entry last.  Job ids are
modelled as `ℕ`, plans as the `String`s the code compares against. -/

/-- The three queues of `QueueManager.__init__`, in the dict's insertion order
`free`, `paid`, `priority`; each stored list is newest first. -/
structure QMState where
  freeQ : List ℕ
  paidQ : List ℕ
  priorityQ : List ℕ
deriving Repr, DecidableEq

def QMState.empty : QMState := ⟨[], [], []⟩

/-- The three job classes. -/
inductive JobClass
  | free
  | paid
  | priorityClass
deriving Repr, DecidableEq

/-- `QueueManager._get_queue_name`: route a plan to its queue. -/
def getQueueName (plan : String) : JobClass :=
  if plan = "enterprise" ∨ plan = "premium" then .priorityClass
  else if plan = "pro" ∨ plan = "starter" then .paid
  else .free

/-- `QueueManager.add_job`: `lpush` onto the plan's queue. -/
def addJob (s : QMState) (jobId : ℕ) (plan : String) : QMState :=
  match getQueueName plan with
  | .priorityClass => { s with priorityQ := jobId :: s.priorityQ }
  | .paid => { s with paidQ := jobId :: s.paidQ }
  | .free => { s with freeQ := jobId :: s.freeQ }

/-- Redis `rpop`: the last (oldest) element, and the list without it. -/
def rpop (l : List ℕ) : Option ℕ × List ℕ :=
  match l.getLast? with
  | none => (none, l)
  | some x => (some x, l.dropLast)

/-- `QueueManager.get_next_job`: try `priority`, then `paid`, then `free`. -/
def getNextJob (s : QMState) : Option ℕ × QMState :=
  match rpop s.priorityQ with
  | (some j, q) => (some j, { s with priorityQ := q })
  | (none, _) =>
    match rpop s.paidQ with
    | (some j, q) => (some j, { s with paidQ := q })
    | (none, _) =>
      match rpop s.freeQ with
      | (some j, q) => (some j, { s with freeQ := q })
      | (none, _) => (none, s)

/-- The state reached by enqueuing `es` (pairs of job id and plan) in order
onto the empty queues. -/
def buildState (es : List (ℕ × String)) : QMState :=
  es.foldl (fun s e => addJob s e.1 e.2) QMState.empty

/-- Specification-side dequeue (from the spec's words): the oldest entry of
the highest-priority class that has one — first-enqueued `priority` job if
any, else first-enqueued `paid` job, else first-enqueued `free` job. -/
def oldestOfHighestClassSpec (es : List (ℕ × String)) : Option ℕ :=
  match es.filter (fun e => getQueueName e.2 = .priorityClass) with
  | e :: _ => some e.1
  | [] =>
    match es.filter (fun e => getQueueName e.2 = .paid) with
    | e :: _ => some e.1
    | [] =>
      match es.filter (fun e => getQueueName e.2 = .free) with
      | e :: _ => some e.1
      | [] => none

/-- Repeatedly dequeue (a single worker's processing order), with fuel. -/
def drainOrder : QMState → ℕ → List ℕ
  | _, 0 => []
  | s, n + 1 =>
    match getNextJob s with
    | (none, _) => []
    | (some j, s') => j :: drainOrder s' n

theorem buildState_aux (es : List (ℕ × String)) (s : QMState) :
    es.foldl (fun s e => addJob s e.1 e.2) s =
      ⟨((es.filter (fun e => getQueueName e.2 = .free)).map Prod.fst).reverse ++ s.freeQ,
       ((es.filter (fun e => getQueueName e.2 = .paid)).map Prod.fst).reverse ++ s.paidQ,
       ((es.filter (fun e => getQueueName e.2 = .priorityClass)).map Prod.fst).reverse
         ++ s.priorityQ⟩ := by
  induction es generalizing s with
  | nil => simp
  | cons e rest ih =>
    simp only [List.foldl_cons, ih]
    rcases h : getQueueName e.2 with _ | _ | _ <;>
      simp [addJob, h, List.filter_cons]

theorem buildState_eq (es : List (ℕ × String)) :
    buildState es =
      ⟨((es.filter (fun e => getQueueName e.2 = .free)).map Prod.fst).reverse,
       ((es.filter (fun e => getQueueName e.2 = .paid)).map Prod.fst).reverse,
       ((es.filter (fun e => getQueueName e.2 = .priorityClass)).map Prod.fst).reverse⟩ := by
  have h := buildState_aux es QMState.empty
  simpa [buildState, QMState.empty] using h

/-- C2: for every enqueue history, `get_next_job` returns the first-enqueued
job of the highest-priority class present (strict priority, FIFO within a
class); in particular the history F1(free), P1(paid), R1(priority), F2(free),
P2(paid) — ids 1..5 — is processed by a single worker in the order
R1, P1, P2, F1, F2. -/
theorem C2_dequeue_strict_priority_fifo :
    (∀ es : List (ℕ × String),
        (getNextJob (buildState es)).1 = oldestOfHighestClassSpec es) ∧
      drainOrder
        (buildState [(1, "free"), (2, "pro"), (3, "premium"), (4, "free"), (5, "starter")])
        5 = [3, 2, 5, 1, 4] := by
  constructor
  · intro es
    rw [buildState_eq]
    rcases hp : es.filter (fun e => getQueueName e.2 = .priorityClass) with _ | ⟨e, rest⟩ <;>
      rcases hq : es.filter (fun e => getQueueName e.2 = .paid) with _ | ⟨e2, rest2⟩ <;>
        rcases hf : es.filter (fun e => getQueueName e.2 = .free) with _ | ⟨e3, rest3⟩ <;>
          simp [getNextJob, oldestOfHighestClassSpec, rpop, List.getLast?_reverse,
            hp, hq, hf]
  · rfl

/-! ## `QueueManager.get_job_position` (C7)

The code walks `self.queues.values()` — the dict's insertion order, i.e.
`free`, `paid`, `priority` — and inside the first queue whose `lrange` holds
the job returns `len(jobs) - i` for the first matching index `i` (the stored
list is newest first, so this is the job's 1-based position counted from the
oldest entry of that single queue). -/

/-- The enumerate loop of `get_job_position` on one queue: first match at
stored index `i` returns `total - i`. -/
def scanPositionAux (j total : ℕ) : List ℕ → ℕ → Option ℕ
  | [], _ => none
  | x :: xs, i => if x = j then some (total - i) else scanPositionAux j total xs (i + 1)

/-- One queue's `len(jobs) - i` position for a job, if present. -/
def scanPosition (jobs : List ℕ) (j : ℕ) : Option ℕ :=
  scanPositionAux j jobs.length jobs 0

/-- `QueueManager.get_job_position`: scan `free`, then `paid`, then
`priority`. -/
def getJobPosition (s : QMState) (j : ℕ) : Option ℕ :=
  match scanPosition s.freeQ j with
  | some p => some p
  | none =>
    match scanPosition s.paidQ j with
    | some p => some p
    | none => scanPosition s.priorityQ j

/-- 1-based index of the first occurrence of `j`. -/
def fifoIdx (j : ℕ) : List ℕ → Option ℕ
  | [] => none
  | x :: xs => if x = j then some 1 else (fifoIdx j xs).map (· + 1)

/-- Claim-side position (from the claim's words): the job's 1-based position
counted across all queues of priority at or above its class — a `free` job
counts every waiting `priority` and `paid` job ahead of it.  A queue list is
stored newest first, so its FIFO position is `fifoIdx` of its reverse. -/
def positionAcrossClassesSpec (s : QMState) (j : ℕ) : Option ℕ :=
  match fifoIdx j s.priorityQ.reverse with
  | some p => some p
  | none =>
    match fifoIdx j s.paidQ.reverse with
    | some p => some (s.priorityQ.length + p)
    | none =>
      (fifoIdx j s.freeQ.reverse).map
        (fun p => s.priorityQ.length + s.paidQ.length + p)

/-- Amended claim-side position: the 1-based FIFO position inside the job's
own queue only, higher-priority queues not counted; `none` when the job is in
no queue. -/
def ownQueuePositionSpec (s : QMState) (j : ℕ) : Option ℕ :=
  if j ∈ s.freeQ then fifoIdx j s.freeQ.reverse
  else if j ∈ s.paidQ then fifoIdx j s.paidQ.reverse
  else if j ∈ s.priorityQ then fifoIdx j s.priorityQ.reverse
  else none

theorem scanPositionAux_not_mem (j total : ℕ) (l : List ℕ) (i : ℕ) (h : j ∉ l) :
    scanPositionAux j total l i = none := by
  induction l generalizing i with
  | nil => rfl
  | cons x xs ih =>
    simp only [List.mem_cons, not_or] at h
    simp [scanPositionAux, Ne.symm h.1, ih (i + 1) h.2]

theorem scanPosition_not_mem (l : List ℕ) (j : ℕ) (h : j ∉ l) :
    scanPosition l j = none :=
  scanPositionAux_not_mem j l.length l 0 h

theorem scanPositionAux_first (j total : ℕ) (a b : List ℕ) (i : ℕ) (ha : j ∉ a) :
    scanPositionAux j total (a ++ j :: b) i = some (total - (a.length + i)) := by
  induction a generalizing i with
  | nil => simp [scanPositionAux]
  | cons x xs ih =>
    simp only [List.mem_cons, not_or] at ha
    have h1 : scanPositionAux j total ((x :: xs) ++ j :: b) i =
        scanPositionAux j total (xs ++ j :: b) (i + 1) := by
      simp [scanPositionAux, Ne.symm ha.1]
    rw [h1, ih (i + 1) ha.2]
    congr 1
    simp only [List.length_cons]
    omega

theorem scanPosition_first (a b : List ℕ) (j : ℕ) (ha : j ∉ a) :
    scanPosition (a ++ j :: b) j = some (b.length + 1) := by
  rw [scanPosition, scanPositionAux_first j _ a b 0 ha]
  simp only [List.length_append, List.length_cons]
  congr 1
  omega

theorem fifoIdx_first (j : ℕ) (a b : List ℕ) (ha : j ∉ a) :
    fifoIdx j (a ++ j :: b) = some (a.length + 1) := by
  induction a with
  | nil => simp [fifoIdx]
  | cons x xs ih =>
    simp only [List.mem_cons, not_or] at ha
    have h1 : fifoIdx j ((x :: xs) ++ j :: b) =
        (fifoIdx j (xs ++ j :: b)).map (· + 1) := by
      simp [fifoIdx, Ne.symm ha.1]
    rw [h1, ih ha.2]
    simp [List.length_cons]

theorem count_decomp {l a b : List ℕ} {j : ℕ} (hl : l = a ++ j :: b)
    (hc : l.count j ≤ 1) : j ∉ a ∧ j ∉ b := by
  subst hl
  simp only [List.count_append, List.count_cons_self] at hc
  constructor <;> intro hmem <;>
    [have := List.one_le_count_iff.2 hmem; have := List.one_le_count_iff.2 hmem] <;>
    omega

/-- FIFO position within one queue for a job occurring exactly once. -/
theorem queue_pos_eq (q : List ℕ) (j : ℕ) (hm : j ∈ q) (hc : q.count j ≤ 1) :
    scanPosition q j = fifoIdx j q.reverse := by
  obtain ⟨a, b, rfl⟩ := List.append_of_mem hm
  obtain ⟨ha, hb⟩ := count_decomp rfl hc
  rw [scanPosition_first a b j ha]
  have : (a ++ j :: b).reverse = b.reverse ++ j :: a.reverse := by
    simp
  rw [this, fifoIdx_first j _ _ (by simpa using hb)]
  simp

/-- C7 (amended): for a job queued exactly once, `get_job_position` returns
its 1-based FIFO position inside its own queue only — jobs waiting in
higher-priority queues are not counted — and `None` exactly when the job is
in no queue. -/
theorem C7_position_within_own_queue (s : QMState) (j : ℕ)
    (huniq : (s.freeQ ++ s.paidQ ++ s.priorityQ).count j ≤ 1) :
    getJobPosition s j = ownQueuePositionSpec s j := by
  simp only [List.count_append] at huniq
  by_cases hf : j ∈ s.freeQ
  · obtain ⟨a, b, hq⟩ := List.append_of_mem hf
    have hcf : s.freeQ.count j ≤ 1 := by
      have := List.one_le_count_iff.2 hf
      omega
    obtain ⟨ha, hb⟩ := count_decomp hq hcf
    have h1 : scanPosition s.freeQ j = some (b.length + 1) := by
      rw [hq]
      exact scanPosition_first a b j ha
    have h2 : fifoIdx j s.freeQ.reverse = some (b.length + 1) := by
      rw [hq, show (a ++ j :: b).reverse = b.reverse ++ j :: a.reverse by simp,
        fifoIdx_first j _ _ (by simpa using hb)]
      simp
    simp [getJobPosition, ownQueuePositionSpec, h1, h2, hf]
  · have h0 : scanPosition s.freeQ j = none := scanPosition_not_mem _ _ hf
    by_cases hp : j ∈ s.paidQ
    · obtain ⟨a, b, hq⟩ := List.append_of_mem hp
      have hcp : s.paidQ.count j ≤ 1 := by
        have := List.one_le_count_iff.2 hp
        omega
      obtain ⟨ha, hb⟩ := count_decomp hq hcp
      have h1 : scanPosition s.paidQ j = some (b.length + 1) := by
        rw [hq]
        exact scanPosition_first a b j ha
      have h2 : fifoIdx j s.paidQ.reverse = some (b.length + 1) := by
        rw [hq, show (a ++ j :: b).reverse = b.reverse ++ j :: a.reverse by simp,
          fifoIdx_first j _ _ (by simpa using hb)]
        simp
      simp [getJobPosition, ownQueuePositionSpec, h0, h1, h2, hf, hp]
    · have h1 : scanPosition s.paidQ j = none := scanPosition_not_mem _ _ hp
      by_cases hr : j ∈ s.priorityQ
      · obtain ⟨a, b, hq⟩ := List.append_of_mem hr
        have hcr : s.priorityQ.count j ≤ 1 := by
          have := List.one_le_count_iff.2 hr
          omega
        obtain ⟨ha, hb⟩ := count_decomp hq hcr
        have h2 : scanPosition s.priorityQ j = some (b.length + 1) := by
          rw [hq]
          exact scanPosition_first a b j ha
        have h3 : fifoIdx j s.priorityQ.reverse = some (b.length + 1) := by
          rw [hq, show (a ++ j :: b).reverse = b.reverse ++ j :: a.reverse by simp,
            fifoIdx_first j _ _ (by simpa using hb)]
          simp
        simp [getJobPosition, ownQueuePositionSpec, h0, h1, h2, h3, hf, hp, hr]
      · have h2 : scanPosition s.priorityQ j = none := scanPosition_not_mem _ _ hr
        simp [getJobPosition, ownQueuePositionSpec, h0, h1, h2, hf, hp, hr]

/-- C7 witness: a free job behind one other free job, with a paid and a
priority job also waiting, sits at position 1 of its own queue. -/
theorem C7_position_witness :
    getJobPosition ⟨[4, 1], [2], [3]⟩ 1 = ownQueuePositionSpec ⟨[4, 1], [2], [3]⟩ 1 :=
  C7_position_within_own_queue ⟨[4, 1], [2], [3]⟩ 1 (by decide)

/-- C7 counterexample: with one paid job waiting and one free job queued, the
claim's cross-queue position for the free job is 2, but `get_job_position`
returns 1 — it never counts the higher-priority queues. -/
theorem C7_position_counterexample :
    getJobPosition ⟨[1], [2], []⟩ 1 = some 1 ∧
      positionAcrossClassesSpec ⟨[1], [2], []⟩ 1 = some 2 ∧
      getJobPosition ⟨[1], [2], []⟩ 1 ≠ positionAcrossClassesSpec ⟨[1], [2], []⟩ 1 := by
  refine ⟨by decide, by decide, by decide⟩

/-! ## Quota ledger and ingress endpoints (C1, C3, C4)

The `usage_credits` row for the current month is modelled as a `Ledger`
(numeric columns as exact rationals).  Endpoint handlers are pure functions
from their request data and the ledger to an HTTP status, the job rows the
request created, and the ledger afterwards. -/

/-- A tenant's `usage_credits` row for the current month. -/
structure Ledger where
  minutesLimit : ℚ
  minutesUsed : ℚ
  translationUsed : ℚ
deriving DecidableEq

/-- `Database.check_user_credits` (backend/database.py): available minutes
`limit - used` must cover the required minutes. -/
def checkUserCredits (lg : Ledger) (requiredMinutes : ℤ) : Bool :=
  decide (lg.minutesLimit - lg.minutesUsed ≥ (requiredMinutes : ℚ))

/-- `UsageModel.can_use` (backend/models/database.py): same check with a
fractional request. -/
def canUse (lg : Ledger) (requiredMinutes : ℚ) : Bool :=
  decide (lg.minutesLimit - lg.minutesUsed ≥ requiredMinutes)

/-- Modelled from the spec: the SQL function `update_monthly_usage` that
`Database.update_user_usage` invokes by RPC is not in the repository.  Per the
spec's Quota Ledger (§4.1 commit: `used` reflects the charged minutes) and the
in-repo `UsageModel.consume_minutes`, it adds the minutes to the tenant's used
minutes for the month. -/
def updateUserUsage (lg : Ledger) (minutes : ℚ) : Ledger :=
  { lg with minutesUsed := lg.minutesUsed + minutes }

/-- `upload_video` (app_production.py line 313):
`duration_minutes = max(1, round(duration_seconds / 60))` — Python banker's
rounding, not a ceiling. -/
def uploadDurationMinutes (durationSeconds : ℚ) : ℤ :=
  max 1 (pythonRound (durationSeconds / 60))

/-- `process_video_production` (app_production.py lines 456 and 483):
`max(1, int(d / 60) + (1 if d % 60 > 0 else 0))` on the stored integer
duration — a ceiling clamped to at least 1. -/
def completionChargeMinutes (durationSeconds : ℕ) : ℕ :=
  max 1 (durationSeconds / 60 + if durationSeconds % 60 > 0 then 1 else 0)

/-- `runpod_handler.handler` step 6 (lines 129-134): charges
`transcription_result["duration"] / 60` as-is, with no rounding at all. -/
def runpodChargeMinutes (durationSeconds : ℚ) : ℚ :=
  durationSeconds / 60

/-- C4: the claim mandates `ceil(duration / 60)` ledger minutes everywhere; at
61 seconds the ceiling is 2, but the upload endpoint reserves
`max(1, round(61/60)) = 1` minute and the RunPod handler charges the raw
fraction `61/60`; only the completion charge in `process_video_production`
takes the ceiling. -/
theorem C4_duration_rounding_diverges :
    uploadDurationMinutes 61 = 1 ∧
      (⌈(61 : ℚ) / 60⌉ : ℤ) = 2 ∧
      completionChargeMinutes 61 = 2 ∧
      runpodChargeMinutes 61 ≠ ((2 : ℤ) : ℚ) ∧
      uploadDurationMinutes 61 ≠ ⌈(61 : ℚ) / 60⌉ := by
  have hceil : (⌈(61 : ℚ) / 60⌉ : ℤ) = 2 := by norm_num [Int.ceil_eq_iff]
  have hup : uploadDurationMinutes 61 = 1 := by
    norm_num [uploadDurationMinutes, pythonRound, Int.fdiv]
  refine ⟨hup, hceil, by norm_num [completionChargeMinutes],
    by norm_num [runpodChargeMinutes], ?_⟩
  rw [hup, hceil]
  norm_num

/-- The result of an ingress call: HTTP status, the statuses of the job rows
the call inserted, and the ledger afterwards. -/
structure IngressResult where
  httpStatus : ℕ
  jobRows : List (List Char)
  ledger : Ledger
deriving DecidableEq

/-- `upload_video` (app_production.py lines 275-359): validate the extension,
probe the duration, check credits with `max(1, round(d/60))`; only then create
the job row (status `processing`).  On insufficient credits the saved upload
is deleted and HTTP 402 returned with no job row and the ledger untouched. -/
def uploadVideoEndpoint (extAllowed : Bool) (durationSeconds : ℚ)
    (lg : Ledger) : IngressResult :=
  if ¬ extAllowed then ⟨400, [], lg⟩
  else if ¬ checkUserCredits lg (uploadDurationMinutes durationSeconds) then ⟨402, [], lg⟩
  else ⟨200, ["processing".data], lg⟩

/-- `process_url` (backend/api/subtitle.py lines 141-229): validate the URL
and the rate limit, then create the job row (status `queued`) BEFORE the
credit check with `duration / 60`; on insufficient credits the row is marked
`failed` and HTTP 402 returned. -/
def processUrlEndpoint (urlValid rateAllowed processOk : Bool)
    (durationSeconds : ℚ) (lg : Ledger) : IngressResult :=
  if ¬ urlValid then ⟨400, [], lg⟩
  else if ¬ rateAllowed then ⟨429, [], lg⟩
  else if ¬ processOk then ⟨500, ["failed".data], lg⟩
  else if ¬ canUse lg (durationSeconds / 60) then ⟨402, ["failed".data], lg⟩
  else ⟨200, ["queued".data], lg⟩

/-- C3 (amended): a submission the ledger cannot cover is rejected with
HTTP 402 and the ledger is unchanged; the upload endpoint creates no job row,
but the URL endpoint has already created one and leaves it with status
`failed`. -/
theorem C3_quota_denied_at_submission (d d2 : ℚ) (lg lg2 : Ledger)
    (h1 : ¬ checkUserCredits lg (uploadDurationMinutes d))
    (h2 : ¬ canUse lg2 (d2 / 60)) :
    uploadVideoEndpoint true d lg = ⟨402, [], lg⟩ ∧
      processUrlEndpoint true true true d2 lg2 = ⟨402, ["failed".data], lg2⟩ := by
  constructor
  · simp [uploadVideoEndpoint, h1]
  · simp [processUrlEndpoint, h2]

/-- C3 witness: a free tenant with 2 of 20 minutes left submitting a 300 s
(5 min) file is denied on both endpoints. -/
theorem C3_quota_denied_witness :
    uploadVideoEndpoint true 300 ⟨20, 18, 0⟩ = ⟨402, [], ⟨20, 18, 0⟩⟩ ∧
      processUrlEndpoint true true true 300 ⟨20, 18, 0⟩ =
        ⟨402, ["failed".data], ⟨20, 18, 0⟩⟩ :=
  C3_quota_denied_at_submission 300 300 ⟨20, 18, 0⟩ ⟨20, 18, 0⟩
    (by norm_num [checkUserCredits, uploadDurationMinutes, pythonRound, Int.fdiv])
    (by norm_num [canUse])

/-- C3 counterexample: on the URL endpoint a quota-denied submission HAS
created a job row (left with status `failed`), contradicting the claimed absence of
a job row. -/
theorem C3_url_creates_job_row :
    (processUrlEndpoint true true true 300 ⟨20, 18, 0⟩).httpStatus = 402 ∧
      (processUrlEndpoint true true true 300 ⟨20, 18, 0⟩).jobRows ≠ [] := by
  have h2 : ¬ canUse ⟨20, 18, 0⟩ ((300 : ℚ) / 60) := by norm_num [canUse]
  constructor <;> simp [processUrlEndpoint, h2]

/-! ## `process_video_production` success path (C1)

The worker body (app_production.py lines 361-499) is modelled by the ordered
list of database calls its success path performs.  The decisive fact is in
src: `await db.update_user_usage(user_id, duration_minutes, job_id)` appears
twice, once before the job is marked `completed` (line 459) and once after
(line 485), both charging the same `duration_minutes`. -/

/-- One database call of the worker. -/
inductive DbEvent
  | statusUpdate (status : List Char)
  | usageUpdate (minutes : ℕ)
deriving DecidableEq

/-- The database calls of `process_video_production`'s success path, in
program order. -/
def processVideoSuccessEvents (translate : Bool) (detectedLang targetLang : List Char)
    (durationSeconds : ℕ) : List DbEvent :=
  let m := completionChargeMinutes durationSeconds
  [.statusUpdate ("extracting_audio".data), .statusUpdate ("transcribing".data),
      .statusUpdate ("generating_subtitles".data)]
    ++ (if translate ∧ detectedLang ≠ targetLang then
          [.statusUpdate ("translating".data)]
        else [])
    ++ [.usageUpdate m, .statusUpdate ("completed".data), .usageUpdate m]

/-- How many times a trace resolves the tenant's usage ledger. -/
def usageUpdateCount (evs : List DbEvent) : ℕ :=
  (evs.filter fun e => match e with | .usageUpdate _ => true | _ => false).length

/-- Replay a trace's ledger effects. -/
def applyEvents (lg : Ledger) (evs : List DbEvent) : Ledger :=
  evs.foldl
    (fun l e => match e with | .usageUpdate m => updateUserUsage l (m : ℚ) | _ => l) lg

/-- C1 (code bug): every successfully completing job charges the ledger
twice, not exactly once — `update_user_usage` is called two times on the
success path, so a 180 s job on a fresh 20-minute ledger ends with
`minutes_used = 6` where the spec's exactly-once commit gives 3. -/
theorem C1_usage_committed_twice :
    (∀ (translate : Bool) (detectedLang targetLang : List Char) (d : ℕ),
        usageUpdateCount (processVideoSuccessEvents translate detectedLang targetLang d)
          = 2) ∧
      applyEvents ⟨20, 0, 0⟩ (processVideoSuccessEvents false ("en".data) ("pt".data) 180)
          = ⟨20, 6, 0⟩ ∧
      (⟨20, 6, 0⟩ : Ledger) ≠ ⟨20, 3, 0⟩ := by
  refine ⟨?_, ?_, ?_⟩
  · intro translate detectedLang targetLang d
    by_cases h : translate ∧ detectedLang ≠ targetLang <;>
      simp [processVideoSuccessEvents, usageUpdateCount, h]
  · norm_num [processVideoSuccessEvents, applyEvents, updateUserUsage,
      completionChargeMinutes]
  · intro h
    have := congrArg Ledger.minutesUsed h
    norm_num at this

/-! ## Subtitle emitter (`backend/services/subtitle_generator.py`)

Timestamps are exact rationals.  A transcription segment carries `start`,
`end` (here `stop`, since `end` is reserved), `text`, optional per-word
timings and, after translation, `original_text`.  The optimizer re-numbers
output lines 1-based; its fallback branch divides the segment duration by the
number of packed lines, which raises `ZeroDivisionError` when the text
tokenizes to no words — hence the `Option` result. -/

/-- A per-word timing entry (`words` items). -/
structure TimedWord where
  word : List Char
  start : ℚ
  stop : ℚ
deriving DecidableEq

/-- A transcription segment as the emitter receives it. -/
structure Segment where
  start : ℚ
  stop : ℚ
  text : List Char
  words : List TimedWord
  originalText : Option (List Char)
deriving DecidableEq

/-- One output line of `_optimize_line_breaks` (`id` is re-assigned 1-based
across the whole stream). -/
structure OutSeg where
  id : ℕ
  start : ℚ
  stop : ℚ
  text : List Char
  originalText : Option (List Char)
deriving DecidableEq

/-- A line with timing, before ids are attached. -/
structure Line where
  start : ℚ
  stop : ℚ
  text : List Char
deriving DecidableEq

/-- Python `" ".join(ws)`. -/
def joinWords (ws : List (List Char)) : List Char :=
  List.intercalate [' '] ws

/-- The greedy packing loop of `_split_text`; `curr` holds the current line's
words reversed, `currLen` mirrors `current_length`. -/
def splitTextAux (maxWidth : ℕ) : List (List Char) → List (List Char) → ℕ → List (List Char)
  | [], curr, _ => if curr = [] then [] else [joinWords curr.reverse]
  | w :: ws, curr, currLen =>
    if currLen + w.length + 1 > maxWidth ∧ curr ≠ [] then
      joinWords curr.reverse :: splitTextAux maxWidth ws [w] (w.length + 1)
    else
      splitTextAux maxWidth ws (w :: curr) (currLen + w.length + 1)

/-- `SubtitleGenerator._split_text` (`max_lines` is accepted and unused, as in
the source). -/
def splitText (text : List Char) (maxWidth maxLines : ℕ) : List (List Char) :=
  splitTextAux maxWidth (pySplit text) [] 0

/-- The line a nonempty `current_line` of words emits: text from the stripped
words, `start` of the first word, `end` of the last. -/
def emitWordLine : List TimedWord → List Line
  | [] => []
  | w0 :: rest =>
    [⟨w0.start, (rest.getLastD w0).stop, joinWords ((w0 :: rest).map fun w => pyStrip w.word)⟩]

/-- The loop of `_split_with_word_timing`; `curr` is `current_line` in
order. -/
def splitWordTimingAux (maxWidth : ℕ) : List TimedWord → List TimedWord → ℕ → List Line
  | [], curr, _ => emitWordLine curr
  | w :: ws, curr, currLen =>
    if currLen + (pyStrip w.word).length + 1 > maxWidth ∧ curr ≠ [] then
      emitWordLine curr ++ splitWordTimingAux maxWidth ws [w] ((pyStrip w.word).length + 1)
    else
      splitWordTimingAux maxWidth ws (curr ++ [w]) (currLen + (pyStrip w.word).length + 1)

/-- `SubtitleGenerator._split_with_word_timing` (`max_lines` unused, as in the
source). -/
def splitWithWordTiming (words : List TimedWord) (maxWidth maxLines : ℕ) : List Line :=
  splitWordTimingAux maxWidth words [] 0

/-- The fallback branch's per-line timing: line `i` of the segment spans
`start + i*tpl` to `start + (i+1)*tpl` where `tpl` is the duration divided by
the line count. -/
def fallbackLinesAux (segStart tpl : ℚ) : ℕ → List (List Char) → List Line
  | _, [] => []
  | i, l :: ls =>
    ⟨segStart + i * tpl, segStart + (i + 1) * tpl, l⟩ :: fallbackLinesAux segStart tpl (i + 1) ls

/-- Attach the re-assigned ids: the `k`-th new line gets
`len(optimized) + 1`. -/
def attachIdsAux (orig : Option (List Char)) : ℕ → List Line → List OutSeg
  | _, [] => []
  | n, l :: ls => ⟨n + 1, l.start, l.stop, l.text, orig⟩ :: attachIdsAux orig (n + 1) ls

/-- `SubtitleGenerator._optimize_line_breaks`, with `acc` the `optimized`
list.  `none` models the `ZeroDivisionError` of `duration / len(lines)` when
a words-free segment's text splits to no lines. -/
def optimizeLineBreaksAux (maxWidth maxLines : ℕ) (acc : List OutSeg) :
    List Segment → Option (List OutSeg)
  | [] => some acc
  | seg :: rest =>
    if seg.words ≠ [] then
      optimizeLineBreaksAux maxWidth maxLines
        (acc ++ attachIdsAux seg.originalText acc.length
          (splitWithWordTiming seg.words maxWidth maxLines)) rest
    else
      let lines := splitText seg.text maxWidth maxLines
      if lines = [] then none
      else
        let tpl := (seg.stop - seg.start) / (lines.length : ℚ)
        optimizeLineBreaksAux maxWidth maxLines
          (acc ++ attachIdsAux seg.originalText acc.length
            (fallbackLinesAux seg.start tpl 0 lines)) rest

/-- `SubtitleGenerator._optimize_line_breaks`. -/
def optimizeLineBreaks (segments : List Segment) (maxWidth maxLines : ℕ) :
    Option (List OutSeg) :=
  optimizeLineBreaksAux maxWidth maxLines [] segments

/-- Floor of a rational as Python's `//` computes it. -/
def ratFloor (q : ℚ) : ℤ :=
  q.num.fdiv q.den

/-- Microseconds of Python's `timedelta(seconds=q)`: the value scaled by
`10^6` and rounded half to even. -/
def timedeltaUs (q : ℚ) : ℤ :=
  pythonRound (q * 1000000)

/-- Zero-pad a number to `width` digits (Python `{:0Nd}`). -/
def natPad (width n : ℕ) : List Char :=
  let ds := Nat.toDigits 10 n
  List.replicate (width - ds.length) '0' ++ ds

/-- Python `f"{v:06.3f}"` on the seconds value `usec / 10^6` (non-negative in
every emitted timestamp), with the decimal separator `sep` already applied:
the value is rounded to 3 decimals half to even — it can round up, to
`60.000` at the extreme — and the integral part is zero-padded to width 2. -/
def fmtSeconds063 (usec : ℤ) (sep : Char) : List Char :=
  let ms := (pythonRound ((usec : ℚ) / 1000)).toNat
  natPad 2 (ms / 1000) ++ sep :: natPad 3 (ms % 1000)

/-- Hours, minutes and seconds fields from the timedelta's microseconds, as
the Python `//`- and `%`-arithmetic computes them (floor semantics). -/
def formatFromUs (us : ℤ) (sep : Char) : List Char :=
  natPad 2 (us.fdiv 3600000000).toNat ++ ':' ::
    natPad 2 ((us.fmod 3600000000).fdiv 60000000).toNat ++ ':' ::
      fmtSeconds063 (us.fmod 60000000) sep

/-- `SubtitleGenerator._format_time_srt`: `HH:MM:SS,mmm` with `,`. -/
def formatTimeSrt (seconds : ℚ) : List Char :=
  formatFromUs (timedeltaUs seconds) ','

/-- `SubtitleGenerator._format_time_vtt`: same fields with `.`. -/
def formatTimeVtt (seconds : ℚ) : List Char :=
  formatFromUs (timedeltaUs seconds) '.'

/-- One SRT block of `_generate_srt`: `i\n{start} --> {end}\n{text}\n\n`. -/
def srtBlock (i : ℕ) (s : OutSeg) : List Char :=
  Nat.toDigits 10 i ++ '\n' :: formatTimeSrt s.start ++ " --> ".data ++
    formatTimeSrt s.stop ++ '\n' :: s.text ++ ['\n', '\n']

/-- The `enumerate(segments, 1)` loop of `_generate_srt`. -/
def generateSrtAux : ℕ → List OutSeg → List Char
  | _, [] => []
  | i, s :: rest => srtBlock i s ++ generateSrtAux (i + 1) rest

/-- `SubtitleGenerator._generate_srt` as the emitted byte stream. -/
def generateSrt (segments : List OutSeg) : List Char :=
  generateSrtAux 1 segments

/-- One WebVTT block of `_generate_vtt`. -/
def vttBlock (s : OutSeg) : List Char :=
  formatTimeVtt s.start ++ " --> ".data ++ formatTimeVtt s.stop ++ '\n' :: s.text ++
    ['\n', '\n']

/-- `SubtitleGenerator._generate_vtt`. -/
def generateVtt (segments : List OutSeg) : List Char :=
  "WEBVTT\n\n".data ++ (segments.map vttBlock).flatten

/-- The SRT and WebVTT streams `generate_subtitles` writes (the JSON dump and
the blob uploads are I/O outside the model). -/
structure SubtitleFiles where
  srt : List Char
  vtt : List Char
deriving DecidableEq

/-- `SubtitleGenerator.generate_subtitles`: optimize line breaks, then write
the formats; `none` models the `ZeroDivisionError` escaping this method. -/
def generateSubtitles (segments : List Segment) (maxWidth maxLines : ℕ) :
    Option SubtitleFiles :=
  (optimizeLineBreaks segments maxWidth maxLines).map fun opt =>
    ⟨generateSrt opt, generateVtt opt⟩

theorem splitTextAux_ne_nil (maxWidth : ℕ) (ws curr : List (List Char)) (currLen : ℕ)
    (h : ws ≠ [] ∨ curr ≠ []) :
    splitTextAux maxWidth ws curr currLen ≠ [] := by
  induction ws generalizing curr currLen with
  | nil =>
    rcases h with h | h
    · exact absurd rfl h
    · simp [splitTextAux, h]
  | cons w ws ih =>
    rw [splitTextAux]
    split
    · simp
    · exact ih _ _ (Or.inr (by simp))

theorem splitText_ne_nil (text : List Char) (maxWidth maxLines : ℕ)
    (h : pySplit text ≠ []) : splitText text maxWidth maxLines ≠ [] :=
  splitTextAux_ne_nil maxWidth (pySplit text) [] 0 (Or.inl h)

theorem optimizeLineBreaksAux_isSome (maxWidth maxLines : ℕ) (segs : List Segment)
    (acc : List OutSeg) (h : ∀ s ∈ segs, s.words = [] → pySplit s.text ≠ []) :
    (optimizeLineBreaksAux maxWidth maxLines acc segs).isSome := by
  induction segs generalizing acc with
  | nil => simp [optimizeLineBreaksAux]
  | cons seg rest ih =>
    rw [optimizeLineBreaksAux]
    split
    · exact ih _ fun s hs => h s (List.mem_cons_of_mem _ hs)
    · rename_i hwords
      simp only [ne_eq, not_not] at hwords
      rw [if_neg (splitText_ne_nil seg.text maxWidth maxLines
        (h seg (List.mem_cons_self seg rest) hwords))]
      exact ih _ fun s hs => h s (List.mem_cons_of_mem _ hs)

/-- C10: a segment with no per-word timings whose text is whitespace-only
makes `generate_subtitles` raise `ZeroDivisionError` (the fallback divides
the duration by zero produced lines); and whenever every words-free segment's
text splits into at least one word, the emitter is total. -/
theorem C10_empty_text_crashes_emitter :
    generateSubtitles [⟨0, 5, "   ".data, [], none⟩] 42 2 = none ∧
      ∀ (maxWidth maxLines : ℕ) (segs : List Segment),
        (∀ s ∈ segs, s.words = [] → pySplit s.text ≠ []) →
        (generateSubtitles segs maxWidth maxLines).isSome := by
  constructor
  · have hsplit : splitText ("   ".data) 42 2 = [] := by decide
    simp [generateSubtitles, optimizeLineBreaks, optimizeLineBreaksAux, hsplit]
  · intro maxWidth maxLines segs h
    simp only [generateSubtitles, Option.isSome_map']
    exact optimizeLineBreaksAux_isSome maxWidth maxLines segs [] h

/-! ## SRT timestamp formatting (C5)

`_format_time_srt` formats with Python `f"{seconds:06.3f}"`, which rounds the
seconds value to 3 decimals (half to even, on top of `timedelta`'s microsecond
quantization) — it does not truncate.  On millisecond-exact inputs rounding
and truncation agree; `2047/2048 s = 999.51171875 ms` separates them. -/

theorem pythonRound_intCast (m : ℤ) : pythonRound ((m : ℚ)) = m := by
  unfold pythonRound
  simp [Rat.num_intCast, Rat.den_intCast, Int.fdiv_one]

theorem timedeltaUs_exact_ms (n : ℕ) :
    timedeltaUs ((n : ℚ) / 1000) = ((1000 * n : ℕ) : ℤ) := by
  have heq : ((n : ℚ) / 1000) * 1000000 = (((1000 * n : ℕ) : ℤ) : ℚ) := by
    push_cast
    field_simp
    ring
  rw [timedeltaUs, heq, pythonRound_intCast]

theorem formatFromUs_natCast (u : ℕ) (sep : Char) :
    formatFromUs (u : ℤ) sep =
      natPad 2 (u / 3600000000) ++ ':' ::
        natPad 2 (u % 3600000000 / 60000000) ++ ':' ::
          fmtSeconds063 ((u % 60000000 : ℕ) : ℤ) sep := by
  have a1 : ((u : ℤ)).fdiv 3600000000 = ((u / 3600000000 : ℕ) : ℤ) := by
    rw [Int.fdiv_eq_ediv _ (by norm_num)]
    omega
  have a2 : ((u : ℤ)).fmod 3600000000 = ((u % 3600000000 : ℕ) : ℤ) := by
    rw [Int.fmod_eq_emod _ (by norm_num)]
    omega
  have a3 : ((u : ℤ)).fmod 60000000 = ((u % 60000000 : ℕ) : ℤ) := by
    rw [Int.fmod_eq_emod _ (by norm_num)]
    omega
  have a4 : (((u % 3600000000 : ℕ) : ℤ)).fdiv 60000000 =
      ((u % 3600000000 / 60000000 : ℕ) : ℤ) := by
    rw [Int.fdiv_eq_ediv _ (by norm_num)]
    omega
  unfold formatFromUs
  rw [a1, a2, a3, a4]
  simp only [Int.toNat_natCast]

theorem fmtSeconds063_exact (m : ℕ) (sep : Char) :
    fmtSeconds063 ((1000 * m : ℕ) : ℤ) sep =
      natPad 2 (m / 1000) ++ sep :: natPad 3 (m % 1000) := by
  unfold fmtSeconds063
  have h : (((1000 * m : ℕ) : ℤ) : ℚ) / 1000 = ((m : ℤ) : ℚ) := by
    push_cast
    field_simp
  rw [h, pythonRound_intCast]
  simp

theorem formatTimeSrt_exact_ms (n : ℕ) :
    formatTimeSrt ((n : ℚ) / 1000) =
      natPad 2 (n / 3600000) ++ ':' :: natPad 2 (n / 60000 % 60) ++ ':' ::
        natPad 2 (n / 1000 % 60) ++ ',' :: natPad 3 (n % 1000) := by
  rw [formatTimeSrt, timedeltaUs_exact_ms, formatFromUs_natCast]
  have e1 : 1000 * n / 3600000000 = n / 3600000 := by omega
  have e2 : 1000 * n % 3600000000 / 60000000 = n / 60000 % 60 := by omega
  have e3 : 1000 * n % 60000000 = 1000 * (n % 60000) := by omega
  rw [e1, e2, e3, fmtSeconds063_exact]
  have e4 : n % 60000 / 1000 = n / 1000 % 60 := by omega
  have e5 : n % 60000 % 1000 = n % 1000 := by omega
  rw [e4, e5]
  simp

theorem generateSrtAux_enumFrom (i : ℕ) (segs : List OutSeg) :
    generateSrtAux i segs = ((segs.enumFrom i).map fun p => srtBlock p.1 p.2).flatten := by
  induction segs generalizing i with
  | nil => rfl
  | cons s rest ih => simp [generateSrtAux, List.enumFrom, ih]

/-- Claim-side SRT timestamp (the claim's words, before amendment):
`HH:MM:SS,mmm`, zero-padded, comma separator, with the milliseconds field the
fractional second rounded DOWN to 3 digits. -/
def srtTimestampTruncSpec (seconds : ℚ) : List Char :=
  let msTotal := (ratFloor (seconds * 1000)).toNat
  natPad 2 (msTotal / 3600000) ++ ':' :: natPad 2 (msTotal / 60000 % 60) ++ ':' ::
    natPad 2 (msTotal / 1000 % 60) ++ ',' :: natPad 3 (msTotal % 1000)

/-- C5 (amended): the SRT writer emits, for line `i`, the block
`i\n{start} --> {end}\n{text}\n\n`; timestamps are `HH:MM:SS,mmm`, zero-padded
with a comma separator, and on millisecond-exact times every field is exact —
but in general the milliseconds field is the fractional second rounded to the
NEAREST millisecond (ties to even, after microsecond quantization), not
truncated. -/
theorem C5_srt_block_format :
    (∀ segs : List OutSeg,
        generateSrt segs = ((segs.enumFrom 1).map fun p => srtBlock p.1 p.2).flatten) ∧
      ∀ n : ℕ,
        formatTimeSrt ((n : ℚ) / 1000) =
          natPad 2 (n / 3600000) ++ ':' :: natPad 2 (n / 60000 % 60) ++ ':' ::
            natPad 2 (n / 1000 % 60) ++ ',' :: natPad 3 (n % 1000) :=
  ⟨fun segs => generateSrtAux_enumFrom 1 segs, formatTimeSrt_exact_ms⟩

/-- C5 counterexample: at `2047/2048` seconds (999.51171875 ms) the writer
emits `00:00:01,000` — the milliseconds field rounded UP across the second
boundary — where the claim's truncation mandates `00:00:00,999`. -/
theorem C5_ms_rounded_up_counterexample :
    formatTimeSrt (2047/2048) = "00:00:01,000".data ∧
      srtTimestampTruncSpec (2047/2048) = "00:00:00,999".data ∧
      formatTimeSrt (2047/2048) ≠ srtTimestampTruncSpec (2047/2048) := by
  have hcode : formatTimeSrt (2047/2048) = "00:00:01,000".data := by
    have hus : timedeltaUs (2047/2048 : ℚ) = 999512 := by
      norm_num [timedeltaUs, pythonRound, Int.fdiv]
    have e1 : Int.fdiv 999512 3600000000 = 0 := by decide
    have e2 : Int.fmod 999512 3600000000 = 999512 := by decide
    have e3 : Int.fdiv 999512 60000000 = 0 := by decide
    have e4 : Int.fmod 999512 60000000 = 999512 := by decide
    have hms : pythonRound ((((999512 : ℤ)) : ℚ) / 1000) = 1000 := by
      norm_num [pythonRound, Int.fdiv]
    simp only [formatTimeSrt, hus, formatFromUs, fmtSeconds063, e1, e2, e3, e4, hms]
    decide
  have hspec : srtTimestampTruncSpec (2047/2048) = "00:00:00,999".data := by
    have h : ratFloor ((2047/2048 : ℚ) * 1000) = 999 := by
      norm_num [ratFloor, Int.fdiv]
    rw [srtTimestampTruncSpec, h]
    decide
  refine ⟨hcode, hspec, ?_⟩
  rw [hcode, hspec]
  decide

/-! ## Line timing invariants of the optimizer (C6)

The fallback branch splits a segment's duration equally across its lines, so
inside one segment consecutive lines touch exactly; but nothing clamps lines
of DIFFERENT segments apart — overlapping input segments yield overlapping
output lines. -/

theorem fallbackLinesAux_mem (segStart tpl : ℚ) (i : ℕ) (ls : List (List Char)) :
    ∀ o ∈ fallbackLinesAux segStart tpl i ls,
      ∃ j, j < ls.length ∧ o.start = segStart + (i + j) * tpl ∧
        o.stop = segStart + (i + j + 1) * tpl := by
  induction ls generalizing i with
  | nil => simp [fallbackLinesAux]
  | cons l rest ih =>
    intro o ho
    rcases ho with _ | ⟨_, hmem⟩
    · exact ⟨0, by simp, by push_cast; ring_nf, by push_cast; ring_nf⟩
    · obtain ⟨j, hj, h1, h2⟩ := ih (i + 1) o hmem
      exact ⟨j + 1, by simpa using hj, by rw [h1]; push_cast; ring_nf,
        by rw [h2]; push_cast; ring_nf⟩

theorem fallbackLinesAux_chain (segStart tpl : ℚ) (i : ℕ) (ls : List (List Char)) :
    (fallbackLinesAux segStart tpl i ls).Chain' fun a b => a.stop ≤ b.start := by
  induction ls generalizing i with
  | nil => simp [fallbackLinesAux]
  | cons l rest ih =>
    cases rest with
    | nil => simp [fallbackLinesAux]
    | cons l2 rest2 =>
      rw [fallbackLinesAux, fallbackLinesAux, List.chain'_cons]
      refine ⟨le_of_eq (by push_cast; ring), ?_⟩
      have := ih (i + 1)
      rwa [fallbackLinesAux] at this

theorem attachIdsAux_mem (orig : Option (List Char)) (n : ℕ) (ls : List Line) :
    ∀ o ∈ attachIdsAux orig n ls, ∃ l ∈ ls, o.start = l.start ∧ o.stop = l.stop := by
  induction ls generalizing n with
  | nil => simp [attachIdsAux]
  | cons l rest ih =>
    intro o ho
    rcases ho with _ | ⟨_, hmem⟩
    · exact ⟨l, List.mem_cons_self l rest, rfl, rfl⟩
    · obtain ⟨l', hl', h1, h2⟩ := ih (n + 1) o hmem
      exact ⟨l', List.mem_cons_of_mem _ hl', h1, h2⟩

theorem attachIdsAux_chain (orig : Option (List Char)) (n : ℕ) (ls : List Line)
    (h : ls.Chain' fun a b => a.stop ≤ b.start) :
    (attachIdsAux orig n ls).Chain' fun a b => a.stop ≤ b.start := by
  induction ls generalizing n with
  | nil => simp [attachIdsAux]
  | cons l rest ih =>
    cases rest with
    | nil => simp [attachIdsAux, List.chain'_singleton]
    | cons l2 rest2 =>
      rw [List.chain'_cons] at h
      rw [attachIdsAux, attachIdsAux, List.chain'_cons]
      have htail := ih (n + 1) h.2
      rw [attachIdsAux] at htail
      exact ⟨h.1, htail⟩

theorem fallback_attach_bounds (seg : Segment) (base : ℕ) (N : ℕ) (hN : 0 < N)
    (hd : seg.start ≤ seg.stop) (ls : List (List Char)) (hlen : ls.length = N) :
    ∀ o ∈ attachIdsAux seg.originalText base
        (fallbackLinesAux seg.start ((seg.stop - seg.start) / (N : ℚ)) 0 ls),
      seg.start ≤ o.start ∧ o.stop ≤ seg.stop ∧ o.start ≤ o.stop := by
  intro o ho
  obtain ⟨l, hl, hos, hoe⟩ := attachIdsAux_mem _ _ _ o ho
  obtain ⟨j, hj, h1, h2⟩ := fallbackLinesAux_mem _ _ 0 ls l hl
  have hNq : (0 : ℚ) < (N : ℚ) := by exact_mod_cast hN
  have htpl : 0 ≤ (seg.stop - seg.start) / (N : ℚ) :=
    div_nonneg (by linarith) (le_of_lt hNq)
  have hjN : ((0 + j + 1 : ℕ) : ℚ) ≤ (N : ℚ) := by
    have : j + 1 ≤ N := by omega
    exact_mod_cast by simpa using this
  constructor
  · rw [hos, h1]
    have : 0 ≤ ((0 + j : ℕ) : ℚ) * ((seg.stop - seg.start) / (N : ℚ)) :=
      mul_nonneg (by positivity) htpl
    push_cast at this ⊢
    linarith
  constructor
  · rw [hoe, h2]
    have hmul : ((0 + j + 1 : ℕ) : ℚ) * ((seg.stop - seg.start) / (N : ℚ)) ≤
        (N : ℚ) * ((seg.stop - seg.start) / (N : ℚ)) :=
      mul_le_mul_of_nonneg_right hjN htpl
    have hcancel : (N : ℚ) * ((seg.stop - seg.start) / (N : ℚ)) = seg.stop - seg.start := by
      field_simp
    push_cast at hmul ⊢
    rw [hcancel] at hmul
    linarith
  · rw [hos, hoe, h1, h2]
    have : ((0 + j : ℕ) : ℚ) * ((seg.stop - seg.start) / (N : ℚ)) ≤
        ((0 + j + 1 : ℕ) : ℚ) * ((seg.stop - seg.start) / (N : ℚ)) := by
      apply mul_le_mul_of_nonneg_right _ htpl
      push_cast
      linarith
    push_cast at this ⊢
    linarith

theorem optimizeAux_invariants (maxW maxL : ℕ) (segs : List Segment)
    (hw : ∀ s ∈ segs, s.words = []) (ht : ∀ s ∈ segs, pySplit s.text ≠ [])
    (hd : ∀ s ∈ segs, s.start ≤ s.stop)
    (hch : segs.Chain' fun a b => a.stop ≤ b.start) :
    ∀ acc : List OutSeg, ∃ out,
      optimizeLineBreaksAux maxW maxL acc segs = some (acc ++ out) ∧
        (∀ o ∈ out, o.start ≤ o.stop) ∧
        (out.Chain' fun a b => a.stop ≤ b.start) ∧
        (∀ s0, segs.head? = some s0 → ∀ o ∈ out, s0.start ≤ o.start) := by
  induction segs with
  | nil =>
    intro acc
    exact ⟨[], by simp [optimizeLineBreaksAux], by simp, by simp, by simp⟩
  | cons seg rest ih =>
    intro acc
    have hwseg : seg.words = [] := hw seg (List.mem_cons_self seg rest)
    have hlines : splitText seg.text maxW maxL ≠ [] :=
      splitText_ne_nil _ _ _ (ht seg (List.mem_cons_self seg rest))
    have hdseg : seg.start ≤ seg.stop := hd seg (List.mem_cons_self seg rest)
    have hN : 0 < (splitText seg.text maxW maxL).length := List.length_pos.2 hlines
    obtain ⟨out', heq, hb', hc', hh'⟩ :=
      ih (fun s hs => hw s (List.mem_cons_of_mem _ hs))
        (fun s hs => ht s (List.mem_cons_of_mem _ hs))
        (fun s hs => hd s (List.mem_cons_of_mem _ hs)) hch.tail
        (acc ++ attachIdsAux seg.originalText acc.length
          (fallbackLinesAux seg.start
            ((seg.stop - seg.start) / ((splitText seg.text maxW maxL).length : ℚ)) 0
            (splitText seg.text maxW maxL)))
    have hbounds := fallback_attach_bounds seg acc.length
      (splitText seg.text maxW maxL).length hN hdseg (splitText seg.text maxW maxL) rfl
    have hchain := attachIdsAux_chain seg.originalText acc.length _
      (fallbackLinesAux_chain seg.start
        ((seg.stop - seg.start) / ((splitText seg.text maxW maxL).length : ℚ)) 0
        (splitText seg.text maxW maxL))
    refine ⟨attachIdsAux seg.originalText acc.length
        (fallbackLinesAux seg.start
          ((seg.stop - seg.start) / ((splitText seg.text maxW maxL).length : ℚ)) 0
          (splitText seg.text maxW maxL)) ++ out', ?_, ?_, ?_, ?_⟩
    · rw [optimizeLineBreaksAux]
      rw [if_neg (by simp [hwseg]), if_neg hlines]
      rw [heq, List.append_assoc]
    · intro o ho
      rcases List.mem_append.1 ho with h | h
      · exact (hbounds o h).2.2
      · exact hb' o h
    · refine List.Chain'.append hchain hc' ?_
      intro x hx y hy
      have hxm := List.mem_of_mem_getLast? hx
      have hym := List.mem_of_mem_head? hy
      have hxstop : x.stop ≤ seg.stop := (hbounds x hxm).2.1
      cases rest with
      | nil =>
        have : out' = [] := by
          rw [optimizeLineBreaksAux] at heq
          have := Option.some.inj heq
          have h2 := List.self_eq_append_right.1 this
          exact h2
        simp [this] at hym
      | cons s1 rest' =>
        have h1 : seg.stop ≤ s1.start := (List.chain'_cons.1 hch).1
        have h2 : s1.start ≤ y.start := hh' s1 rfl y hym
        exact le_trans hxstop (le_trans h1 h2)
    · intro s0 hs0 o ho
      have hs0seg : seg = s0 := by
        simpa using hs0
      subst hs0seg
      rcases List.mem_append.1 ho with h | h
      · exact (hbounds o h).1
      · cases rest with
        | nil =>
          have : out' = [] := by
            rw [optimizeLineBreaksAux] at heq
            exact List.self_eq_append_right.1 (Option.some.inj heq)
          simp [this] at h
        | cons s1 rest' =>
          have h1 : seg.stop ≤ s1.start := (List.chain'_cons.1 hch).1
          have h2 : s1.start ≤ o.start := hh' s1 rfl o h
          exact le_trans hdseg (le_trans h1 h2)

/-- C6 (amended): for word-timing-free segments with nonempty text, each with
`end ≥ start`, that are themselves non-overlapping in order
(`end_i ≤ start_{i+1}`), every emitted line has `end ≥ start` and no two
consecutive emitted lines overlap.  (The claim's weaker hypothesis — only
`start_i ≤ start_{i+1}` and `end_i ≥ start_i` — admits overlapping input
segments, and the emitter has no cross-segment clamp; see the
counterexample.) -/
theorem C6_line_invariants (maxW maxL : ℕ) (segs : List Segment)
    (hw : ∀ s ∈ segs, s.words = []) (ht : ∀ s ∈ segs, pySplit s.text ≠ [])
    (hd : ∀ s ∈ segs, s.start ≤ s.stop)
    (hch : segs.Chain' fun a b => a.stop ≤ b.start) :
    ∃ out, optimizeLineBreaks segs maxW maxL = some out ∧
      (∀ o ∈ out, o.start ≤ o.stop) ∧
      out.Chain' fun a b => a.stop ≤ b.start := by
  obtain ⟨out, heq, hb, hc, _⟩ := optimizeAux_invariants maxW maxL segs hw ht hd hch []
  exact ⟨out, by simpa [optimizeLineBreaks] using heq, hb, hc⟩

/-- C6 witness: two clean one-word segments (0–1 s and 2–3 s) produce
non-overlapping lines with `end ≥ start`. -/
theorem C6_line_invariants_witness :
    ∃ out, optimizeLineBreaks
        [⟨0, 1, "hi".data, [], none⟩, ⟨2, 3, "yo".data, [], none⟩] 42 2 = some out ∧
      (∀ o ∈ out, o.start ≤ o.stop) ∧
      out.Chain' fun a b => a.stop ≤ b.start :=
  C6_line_invariants 42 2 [⟨0, 1, "hi".data, [], none⟩, ⟨2, 3, "yo".data, [], none⟩]
    (by
      intro s hs
      simp only [List.mem_cons, List.not_mem_nil, or_false] at hs
      rcases hs with rfl | rfl <;> rfl)
    (by
      intro s hs
      simp only [List.mem_cons, List.not_mem_nil, or_false] at hs
      rcases hs with rfl | rfl <;> decide)
    (by
      intro s hs
      simp only [List.mem_cons, List.not_mem_nil, or_false] at hs
      rcases hs with rfl | rfl <;> norm_num)
    (List.chain'_cons.2 ⟨by norm_num, List.chain'_singleton _⟩)

/-- C6 counterexample: the input segments (0,10) and (5,6) satisfy the
transcription ordering guarantee of the claim (starts sorted, `end ≥ start`),
yet the emitter outputs lines (0,10) and (5,6) — line 2 starts at 5 while
line 1 ends at 10.  There is no cross-segment clamp. -/
theorem C6_overlap_counterexample :
    optimizeLineBreaks [⟨0, 10, "a".data, [], none⟩, ⟨5, 6, "b".data, [], none⟩] 42 2 =
        some [⟨1, 0, 10, "a".data, none⟩, ⟨2, 5, 6, "b".data, none⟩] ∧
      ((0 : ℚ) ≤ 5 ∧ (0 : ℚ) ≤ 10 ∧ (5 : ℚ) ≤ 6) ∧
      ¬ ([⟨1, 0, 10, "a".data, none⟩, ⟨2, 5, 6, "b".data, none⟩] : List OutSeg).Chain'
          fun a b => a.stop ≤ b.start := by
  refine ⟨?_, by norm_num, ?_⟩
  · have h1 : splitText ("a".data) 42 2 = ["a".data] := by decide
    have h2 : splitText ("b".data) 42 2 = ["b".data] := by decide
    simp only [optimizeLineBreaks, optimizeLineBreaksAux, h1, h2, fallbackLinesAux,
      attachIdsAux]
    norm_num
    exact ⟨by decide, by decide⟩
  · intro h
    have := (List.chain'_cons.1 h).1
    norm_num at this

/-! ## Translation mapping (`translator_pro.py`, C8)

`_map_translation_to_segments` splits the provider's response into lines,
parses `[SEGk] text` markers into a dict, then copies each original segment,
replacing only `text` (and recording `original_text`) when index `k` parsed;
a segment whose marker is missing or malformed keeps its text. -/

/-- Does `pat` stand at the head of `l`? -/
def startsWithCL : List Char → List Char → Bool
  | [], _ => true
  | _ :: _, [] => false
  | p :: ps, c :: cs => p = c && startsWithCL ps cs

/-- First index at which substring `pat` occurs in `l`. -/
def findSub (pat : List Char) : List Char → Option ℕ
  | [] => if startsWithCL pat [] then some 0 else none
  | c :: cs => if startsWithCL pat (c :: cs) then some 0 else (findSub pat cs).map (· + 1)

/-- Python `l.find(pat)`: first index, `-1` when absent. -/
def pyFind (l pat : List Char) : ℤ :=
  match findSub pat l with
  | some i => (i : ℤ)
  | none => -1

/-- Python `l[a:b]` for the guarded non-negative indices the code reaches. -/
def pySlice (l : List Char) (a b : ℤ) : List Char :=
  (l.take b.toNat).drop a.toNat

/-- Digit-run continuation: Python int literals allow single underscores
between digits. -/
def pyDigitsCore : List Char → Bool
  | [] => true
  | '_' :: [] => false
  | '_' :: c :: cs => c.isDigit && pyDigitsCore cs
  | c :: cs => c.isDigit && pyDigitsCore cs

/-- A nonempty valid digit run. -/
def pyDigitsOk : List Char → Bool
  | [] => false
  | c :: cs => c.isDigit && pyDigitsCore cs

/-- Decimal value, underscores skipped. -/
def digitsValue (s : List Char) : ℕ :=
  (s.filter (· ≠ '_')).foldl (fun a c => 10 * a + (c.toNat - 48)) 0

/-- Python `int(s)` on decimal strings: strip whitespace, optional sign,
digits (ASCII digits modelled). -/
def pyInt? (s : List Char) : Option ℤ :=
  match pyStrip s with
  | '+' :: rest => if pyDigitsOk rest then some ((digitsValue rest : ℕ) : ℤ) else none
  | '-' :: rest => if pyDigitsOk rest then some (-((digitsValue rest : ℕ) : ℤ)) else none
  | rest => if pyDigitsOk rest then some ((digitsValue rest : ℕ) : ℤ) else none

/-- Python `s.split(sep)` for a one-character separator (keeps empties). -/
def splitOnChar (sep : Char) : List Char → List (List Char)
  | [] => [[]]
  | c :: cs =>
    if c = sep then [] :: splitOnChar sep cs
    else
      match splitOnChar sep cs with
      | [] => [[c]]
      | w :: ws => (c :: w) :: ws

/-- One iteration of the parsing loop: the `(seg_id, text)` a response line
contributes, if its `[SEGk]` marker parses (`start = find('[SEG') + 4`,
`end = find(']')`, guards `start > 3 and end > start`, `int` may fail). -/
def parseSegLine (line : List Char) : Option (ℤ × List Char) :=
  if pyStrip line ≠ [] ∧ (findSub ("[SEG".data) line).isSome then
    let start := pyFind line ("[SEG".data) + 4
    let stop := pyFind line ("]".data)
    if start > 3 ∧ stop > start then
      match pyInt? (pySlice line start stop) with
      | some k => some (k, pyStrip (line.drop (stop + 1).toNat))
      | none => none
    else none
  else none

/-- The `translations` dict built over `translated_text.strip().split('\n')`
(later lines overwrite earlier ones, hence the cons and first-match
lookup). -/
def parseTranslations (translatedText : List Char) : List (ℤ × List Char) :=
  (splitOnChar '\n' (pyStrip translatedText)).foldl
    (fun m line =>
      match parseSegLine line with
      | some kv => kv :: m
      | none => m) []

/-- Dict lookup (most recent write wins). -/
def lookupTranslation : List (ℤ × List Char) → ℤ → Option (List Char)
  | [], _ => none
  | (k', t) :: rest, k => if k' = k then some t else lookupTranslation rest k

/-- The application loop of `_map_translation_to_segments`: `segment.copy()`,
then `text` replaced and `original_text` recorded when index `i` is in the
dict. -/
def mapTransAux (tr : List (ℤ × List Char)) : ℕ → List Segment → List Segment
  | _, [] => []
  | i, seg :: rest =>
    (match lookupTranslation tr (i : ℤ) with
      | some t => { seg with text := t, originalText := some seg.text }
      | none => seg) :: mapTransAux tr (i + 1) rest

/-- `AISubtitleTranslator._map_translation_to_segments`. -/
def mapTranslationToSegments (originalBlock : List Segment) (translatedText : List Char) :
    List Segment :=
  mapTransAux (parseTranslations translatedText) 0 originalBlock

theorem mapTransAux_length (tr : List (ℤ × List Char)) (n : ℕ) (block : List Segment) :
    (mapTransAux tr n block).length = block.length := by
  induction block generalizing n with
  | nil => rfl
  | cons seg rest ih =>
    rw [mapTransAux]
    cases lookupTranslation tr (n : ℤ) <;> simp [ih]

theorem mapTransAux_get (tr : List (ℤ × List Char)) (block : List Segment) :
    ∀ (n i : ℕ) (hi : i < block.length) (hi' : i < (mapTransAux tr n block).length),
      ((mapTransAux tr n block).get ⟨i, hi'⟩).start = (block.get ⟨i, hi⟩).start ∧
        ((mapTransAux tr n block).get ⟨i, hi'⟩).stop = (block.get ⟨i, hi⟩).stop ∧
        ((mapTransAux tr n block).get ⟨i, hi'⟩).words = (block.get ⟨i, hi⟩).words ∧
        (lookupTranslation tr ((n + i : ℕ) : ℤ) = none →
          ((mapTransAux tr n block).get ⟨i, hi'⟩).text = (block.get ⟨i, hi⟩).text) := by
  induction block with
  | nil =>
    intro n i hi
    exact absurd hi (by simp)
  | cons seg rest ih =>
    intro n i hi hi'
    cases i with
    | zero =>
      simp only [mapTransAux, List.get]
      cases hl : lookupTranslation tr ((n : ℕ) : ℤ) with
      | some t => exact ⟨rfl, rfl, rfl, fun hnone => by simp_all⟩
      | none => exact ⟨rfl, rfl, rfl, fun _ => rfl⟩
    | succ i0 =>
      have hi2 : i0 < rest.length := by simpa using hi
      have hi2' : i0 < (mapTransAux tr (n + 1) rest).length := by
        rw [mapTransAux_length]
        exact hi2
      have step := ih (n + 1) i0 hi2 hi2'
      have hkey : ((n + 1 + i0 : ℕ) : ℤ) = ((n + (i0 + 1) : ℕ) : ℤ) := by
        congr 1
        omega
      rw [hkey] at step
      cases hl : lookupTranslation tr ((n : ℕ) : ℤ) <;>
        simpa only [mapTransAux, hl, List.get] using step

/-- C8: translation preserves per-segment timings — every mapped segment has
the start, end and word timings of its original, only `text` can change, and
an index whose `[SEGk]` marker failed to parse keeps its original text. -/
theorem C8_translation_preserves_timings (block : List Segment) (txt : List Char) :
    ∃ h : (mapTranslationToSegments block txt).length = block.length,
      ∀ i : Fin block.length,
        ((mapTranslationToSegments block txt).get (Fin.cast h.symm i)).start =
            (block.get i).start ∧
          ((mapTranslationToSegments block txt).get (Fin.cast h.symm i)).stop =
            (block.get i).stop ∧
          ((mapTranslationToSegments block txt).get (Fin.cast h.symm i)).words =
            (block.get i).words ∧
          (lookupTranslation (parseTranslations txt) ((i : ℕ) : ℤ) = none →
            ((mapTranslationToSegments block txt).get (Fin.cast h.symm i)).text =
              (block.get i).text) := by
  refine ⟨mapTransAux_length _ 0 block, fun i => ?_⟩
  have h := mapTransAux_get (parseTranslations txt) block 0 (i : ℕ) i.isLt
    (by rw [mapTransAux_length]; exact i.isLt)
  simpa [mapTranslationToSegments, Fin.cast] using h

/-! ## Translation failure handling (C9)

`JobProcessor.translate_segments` wraps the translator call in `try/except`
and on ANY exception returns the original segments (the source comments
`# Retorna original em caso de erro`); `runpod_handler.handler` therefore
reaches `completed` even when translation failed.  `SmartTranslator.translate`
likewise returns `None` on total exhaustion — no typed `TranslationFailed`
exists anywhere. -/

/-- `JobProcessor.translate_segments`: the translator call may raise
(`Except.error`); the `except` branch returns the original segments. -/
def translateSegmentsJP (translator : List Segment → Except (List Char) (List Segment))
    (segments : List Segment) : List Segment :=
  match translator segments with
  | .ok translated => translated
  | .error _ => segments

/-- What the RunPod handler leaves behind: the job's terminal status, the
error message if any, and the `was_translated` flag of its return value. -/
structure HandlerOutcome where
  finalStatus : List Char
  errorMsg : Option (List Char)
  wasTranslated : Bool
deriving DecidableEq

/-- `runpod_handler.handler`: download, transcribe, optionally translate via
`translate_segments` (which cannot raise), generate and upload subtitles,
then mark `completed`.  Steps that raise land in the `except` branch, which
marks the job `failed`.  `was_translated` is the truthiness of
`translated_segments`. -/
def runpodHandler (downloadOk : Bool)
    (transcription : Except (List Char) (List Segment × List Char))
    (translator : List Segment → Except (List Char) (List Segment))
    (translate : Bool) (targetLang : Option (List Char))
    (uploadOk : Bool) : HandlerOutcome :=
  if ¬ downloadOk then ⟨"failed".data, some ("download failed".data), false⟩
  else
    match transcription with
    | .error e => ⟨"failed".data, some e, false⟩
    | .ok (segments, detectedLang) =>
      let translatedSegments : Option (List Segment) :=
        match translate, targetLang with
        | true, some t =>
          if detectedLang ≠ t then some (translateSegmentsJP translator segments)
          else none
        | _, _ => none
      if ¬ uploadOk then ⟨"failed".data, some ("subtitle generation failed".data), false⟩
      else ⟨"completed".data, none, translatedSegments.getD [] ≠ []⟩

/-- `SmartTranslator.translate`: try each usable service in priority order;
on exhaustion, wait and make one forced attempt whose failure is returned as
`None` — never raised. -/
def smartTranslatorTranslate (attempt : ℕ → Option (List Char))
    (usable : ℕ → Bool) (services : List ℕ) (lastResort : ℕ) : Option (List Char) :=
  match services.findSome? (fun s => if usable s then attempt s else none) with
  | some r => some r
  | none => attempt lastResort

theorem findSome?_none {α β : Type} (f : α → Option β) (l : List α)
    (h : ∀ a, f a = none) : l.findSome? f = none := by
  induction l with
  | nil => rfl
  | cons x xs ih => rw [List.findSome?_cons, h x, ih]

/-- C9 (amended): when the translation call raises,
`JobProcessor.translate_segments` catches the exception and returns the
original segments, and the handler still drives the job to `completed` (with
untranslated text and even `was_translated = True`); and
`SmartTranslator.translate` returns `None` on full exhaustion.  No
`TranslationFailed` error is surfaced anywhere. -/
theorem C9_translation_errors_swallowed
    (translator : List Segment → Except (List Char) (List Segment))
    (segments : List Segment) (detectedLang target err : List Char)
    (h : translator segments = .error err) :
    translateSegmentsJP translator segments = segments ∧
      (runpodHandler true (.ok (segments, detectedLang)) translator
          true (some target) true).finalStatus = "completed".data ∧
      ∀ (attempt : ℕ → Option (List Char)) (usable : ℕ → Bool)
        (services : List ℕ) (lastResort : ℕ),
        (∀ s, attempt s = none) →
        smartTranslatorTranslate attempt usable services lastResort = none := by
  refine ⟨by simp [translateSegmentsJP, h], by simp [runpodHandler], ?_⟩
  intro attempt usable services lastResort hall
  rw [smartTranslatorTranslate,
    findSome?_none _ services (fun s => by rw [hall s]; simp), hall]

/-- C9 witness: a provider raising a 429 on a one-segment block. -/
theorem C9_swallowed_witness :
    translateSegmentsJP (fun _ => .error ("429".data)) [⟨0, 1, "hi".data, [], none⟩] =
        [⟨0, 1, "hi".data, [], none⟩] ∧
      (runpodHandler true (.ok ([⟨0, 1, "hi".data, [], none⟩], "en".data))
          (fun _ => .error ("429".data)) true (some ("pt".data)) true).finalStatus =
        "completed".data ∧
      ∀ (attempt : ℕ → Option (List Char)) (usable : ℕ → Bool)
        (services : List ℕ) (lastResort : ℕ),
        (∀ s, attempt s = none) →
        smartTranslatorTranslate attempt usable services lastResort = none :=
  C9_translation_errors_swallowed (fun _ => .error ("429".data))
    [⟨0, 1, "hi".data, [], none⟩] ("en".data) ("pt".data) ("429".data) rfl

/-- C9 counterexample: with every step healthy but the translator raising,
the handler ends the job `completed` — not `failed` — with the original
segments and `was_translated = True`; the claimed `TranslationFailed` →
`failed` propagation does not exist. -/
theorem C9_completed_despite_failure_counterexample :
    runpodHandler true (.ok ([⟨0, 1, "hi".data, [], none⟩], "en".data))
        (fun _ => .error ("boom".data)) true (some ("pt".data)) true =
      ⟨"completed".data, none, true⟩ ∧
      ("completed".data : List Char) ≠ "failed".data := by
  exact ⟨rfl, by decide⟩

end SiteLegendas
